import Mathlib

/-!
Shallow embedding of the ClawBands policy-evaluation and approval-queue core
(src/src/core/ApprovalQueue.ts, src/src/core/Interceptor.ts and the Arbitrator),
together with proofs settling the frozen claims about it.

Timestamps are naturals (milliseconds); every operation that reads the clock
takes an explicit `now` argument, standing for the `Date.now()` calls the
TypeScript performs during that (synchronous, uninterruptible) operation.
The TypeScript `Map` is embedded as an association list with `Map.get` /
`Map.set` / `Map.delete` semantics (`mget` / `mset` / `mdel`).
-/

namespace ClawBands

/-- Entry status, from the `status` field of `ApprovalEntry` (ApprovalQueue.ts). -/
inductive Status where
  | pending
  | approved
  | denied
  deriving DecidableEq, Repr

/-- `ApprovalEntry` of ApprovalQueue.ts. -/
structure ApprovalEntry where
  sessionKey : String
  moduleName : String
  methodName : String
  status : Status
  createdAt : Nat
  expiresAt : Nat
  deriving DecidableEq, Repr

/-- `DEFAULT_TTL_MS` (2 minutes). -/
def DEFAULT_TTL_MS : Nat := 120000

/-- `CONSUME_MAX_AGE_MS`: freshness window for retry-as-approval (60 s). -/
def CONSUME_MAX_AGE_MS : Nat := 60000

/-- `CLEANUP_INTERVAL_MS`: the lazy sweep runs at most every 30 s. -/
def CLEANUP_INTERVAL_MS : Nat := 30000

/-- `Map.get`: the value at the first pair carrying the key. -/
def mget {α : Type} : List (String × α) → String → Option α
  | [], _ => none
  | (k0, v0) :: rest, k => if k0 = k then some v0 else mget rest k

/-- `Map.set`: replace the value at the key in place, or append the pair. -/
def mset {α : Type} : List (String × α) → String → α → List (String × α)
  | [], k, v => [(k, v)]
  | (k0, v0) :: rest, k, v =>
      if k0 = k then (k, v) :: rest else (k0, v0) :: mset rest k v

/-- `Map.delete`: drop the pair(s) carrying the key. -/
def mdel {α : Type} (l : List (String × α)) (k : String) : List (String × α) :=
  l.filter fun p => decide (p.1 ≠ k)

/-- JavaScript `k.startsWith(p)`. -/
def strStartsWith (k p : String) : Bool :=
  p.data.isPrefixOf k.data

/-- The mutable state of class `ApprovalQueue`: the entries map, the
blanket-allow map (key → expiresAt), the cleanup throttle and the TTL
chosen at construction. -/
structure ApprovalQueue where
  entries : List (String × ApprovalEntry)
  blanketAllows : List (String × Nat)
  lastCleanup : Nat
  ttl : Nat
  deriving DecidableEq, Repr

/-- `ApprovalQueue.key`: composite key `session::module.method`. -/
def qkey (sessionKey moduleName methodName : String) : String :=
  sessionKey ++ "::" ++ moduleName ++ "." ++ methodName

/-- `ApprovalQueue.keysForSession`: all map keys starting with `session::`. -/
def keysForSession (es : List (String × ApprovalEntry)) (sessionKey : String) :
    List String :=
  (es.map Prod.fst).filter fun k => strStartsWith k (sessionKey ++ "::")

/-- `ApprovalQueue.cleanup`: evict every entry and blanket allow whose
`expiresAt` has passed; remember the sweep time. -/
def cleanup (q : ApprovalQueue) (now : Nat) : ApprovalQueue :=
  { q with
    entries := q.entries.filter fun p => decide (now < p.2.expiresAt)
    blanketAllows := q.blanketAllows.filter fun p => decide (now < p.2)
    lastCleanup := now }

/-- `ApprovalQueue.maybeCleanup`: run the sweep at most every 30 s. -/
def maybeCleanup (q : ApprovalQueue) (now : Nat) : ApprovalQueue :=
  if CLEANUP_INTERVAL_MS < now - q.lastCleanup then cleanup q now else q

/-- `ApprovalQueue.request`: register a pending approval request; a live
pending entry still inside the retry window is kept untouched, anything
else is overwritten by a fresh pending entry. Returns the composite key. -/
def request (q : ApprovalQueue) (sessionKey moduleName methodName : String)
    (now : Nat) : String × ApprovalQueue :=
  let q1 := maybeCleanup q now
  let k := qkey sessionKey moduleName methodName
  let fresh : ApprovalEntry :=
    { sessionKey := sessionKey, moduleName := moduleName, methodName := methodName,
      status := .pending, createdAt := now, expiresAt := now + q1.ttl }
  match mget q1.entries k with
  | some existing =>
      if existing.status = .pending ∧ now < existing.expiresAt ∧
          now - existing.createdAt ≤ CONSUME_MAX_AGE_MS then
        (k, q1)
      else
        (k, { q1 with entries := mset q1.entries k fresh })
  | none => (k, { q1 with entries := mset q1.entries k fresh })

/-- `ApprovalQueue.consume`: remove an approved, unexpired entry (single use).
Returns whether one was consumed, with the queue after the call. -/
def consume (q : ApprovalQueue) (sessionKey moduleName methodName : String)
    (now : Nat) : Bool × ApprovalQueue :=
  let k := qkey sessionKey moduleName methodName
  match mget q.entries k with
  | some e =>
      if e.status = .approved ∧ now < e.expiresAt then
        (true, { q with entries := mdel q.entries k })
      else (false, q)
  | none => (false, q)

/-- `ApprovalQueue.consumePending`: retry-as-approval; only a pending,
unexpired entry no older than the freshness window is consumed. -/
def consumePending (q : ApprovalQueue) (sessionKey moduleName methodName : String)
    (now : Nat) : Bool × ApprovalQueue :=
  let k := qkey sessionKey moduleName methodName
  match mget q.entries k with
  | some e =>
      if e.status = .pending ∧ now < e.expiresAt then
        if CONSUME_MAX_AGE_MS < now - e.createdAt then (false, q)
        else (true, { q with entries := mdel q.entries k })
      else (false, q)
  | none => (false, q)

/-- The loop body of `ApprovalQueue.approve`: walk the session's keys,
turning each pending, unexpired entry into an approved one whose TTL is
reset from `now`; count the transitions. -/
def approveLoop (es : List (String × ApprovalEntry)) (ks : List String)
    (now ttl : Nat) : List (String × ApprovalEntry) × Nat :=
  match ks with
  | [] => (es, 0)
  | k :: rest =>
      match mget es k with
      | some e =>
          if e.status = .pending ∧ now < e.expiresAt then
            let es1 := mset es k { e with status := .approved, expiresAt := now + ttl }
            let r := approveLoop es1 rest now ttl
            (r.1, r.2 + 1)
          else approveLoop es rest now ttl
      | none => approveLoop es rest now ttl

/-- `ApprovalQueue.approve`: session-wide approval. Returns the count and
the queue after the call. -/
def approve (q : ApprovalQueue) (sessionKey : String) (now : Nat) :
    Nat × ApprovalQueue :=
  let q1 := maybeCleanup q now
  let r := approveLoop q1.entries (keysForSession q1.entries sessionKey) now q1.ttl
  (r.2, { q1 with entries := r.1 })

/-- The loop body of `ApprovalQueue.deny`: delete each pending entry among
the session's keys, counting deletions. -/
def denyLoop (es : List (String × ApprovalEntry)) (ks : List String) :
    List (String × ApprovalEntry) × Nat :=
  match ks with
  | [] => (es, 0)
  | k :: rest =>
      match mget es k with
      | some e =>
          if e.status = .pending then
            let r := denyLoop (mdel es k) rest
            (r.1, r.2 + 1)
          else denyLoop es rest
      | none => denyLoop es rest

/-- `ApprovalQueue.deny`: session-wide denial (pending entries removed). -/
def deny (q : ApprovalQueue) (sessionKey : String) (now : Nat) :
    Nat × ApprovalQueue :=
  let q1 := maybeCleanup q now
  let r := denyLoop q1.entries (keysForSession q1.entries sessionKey)
  (r.2, { q1 with entries := r.1 })

/-- `ApprovalQueue.hasPending`. -/
def hasPending (q : ApprovalQueue) (sessionKey : String) (now : Nat) : Bool :=
  (keysForSession q.entries sessionKey).any fun k =>
    match mget q.entries k with
    | some e => decide (e.status = .pending) && decide (now < e.expiresAt)
    | none => false

/-- `ApprovalQueue.allowFor`: install/overwrite a blanket allow. -/
def allowFor (q : ApprovalQueue) (sessionKey moduleName methodName : String)
    (durationMs now : Nat) : ApprovalQueue :=
  { q with
    blanketAllows :=
      mset q.blanketAllows (qkey sessionKey moduleName methodName) (now + durationMs) }

/-- `ApprovalQueue.hasBlanketAllow`: read a blanket allow, self-evicting an
expired one. The `if (!expiresAt)` truthiness test of the source makes a
stored `0` behave like a missing entry. -/
def hasBlanketAllow (q : ApprovalQueue) (sessionKey moduleName methodName : String)
    (now : Nat) : Bool × ApprovalQueue :=
  let k := qkey sessionKey moduleName methodName
  match mget q.blanketAllows k with
  | none => (false, q)
  | some expiresAt =>
      if expiresAt = 0 then (false, q)
      else if expiresAt ≤ now then
        (false, { q with blanketAllows := mdel q.blanketAllows k })
      else (true, q)

/-- `ApprovalQueue.getPendingActions`. -/
def getPendingActions (q : ApprovalQueue) (sessionKey : String) (now : Nat) :
    List (String × String) :=
  (((keysForSession q.entries sessionKey).filterMap fun k => mget q.entries k).filter
      fun e => decide (e.status = .pending) && decide (now < e.expiresAt)).map
    fun e => (e.moduleName, e.methodName)

/-- `Decision` of types.ts. -/
inductive Decision where
  | ALLOW
  | DENY
  | ASK
  deriving DecidableEq, Repr

/-- `SecurityRule` of types.ts (`description` is optional). -/
structure SecurityRule where
  action : Decision
  description : Option String
  deriving DecidableEq, Repr

/-- `SecurityPolicy` of types.ts: the default action plus the nested
module → method → rule object, embedded as association lists. -/
structure SecurityPolicy where
  defaultAction : Decision
  modules : List (String × List (String × SecurityRule))
  deriving DecidableEq, Repr

/-- `Interceptor.lookupRule`: the exact module+method rule when present,
otherwise the policy default with the fallback description. -/
def lookupRule (policy : SecurityPolicy) (moduleName methodName : String) :
    SecurityRule :=
  let fallback : SecurityRule :=
    { action := policy.defaultAction
      description :=
        some ("No specific rule defined for " ++ moduleName ++ "." ++ methodName) }
  match mget policy.modules moduleName with
  | some moduleRules =>
      match mget moduleRules methodName with
      | some r => r
      | none => fallback
  | none => fallback

/-- JavaScript truthiness of the optional `sessionKey` string: present and
non-empty. -/
def sessionTruthy : Option String → Bool
  | none => false
  | some s => !s.isEmpty

/-- `Arbitrator.judgeChannel`: Path A (`consume`), then Path B
(`consumePending`), then Path C (`request` and report not approved). -/
def judgeChannel (q : ApprovalQueue) (sessionKey moduleName methodName : String)
    (now : Nat) : Bool × ApprovalQueue :=
  let r1 := consume q sessionKey moduleName methodName now
  if r1.1 then (true, r1.2)
  else
    let r2 := consumePending r1.2 sessionKey moduleName methodName now
    if r2.1 then (true, r2.2)
    else
      let r3 := request r2.2 sessionKey moduleName methodName now
      (false, r3.2)

/-- `Arbitrator.judge`: TTY prompt (the human's answer is the `ttyDecision`
argument), else channel mode when a truthy session key is present, else
auto-deny. -/
def judge (isTTY ttyDecision : Bool) (sessionKey : Option String)
    (moduleName methodName : String) (q : ApprovalQueue) (now : Nat) :
    Bool × ApprovalQueue :=
  if isTTY then (ttyDecision, q)
  else if sessionTruthy sessionKey then
    judgeChannel q (sessionKey.getD "") moduleName methodName now
  else (false, q)

/-- `Interceptor.executeDecision`: ALLOW and DENY answer immediately,
ASK delegates to the Arbitrator. -/
def executeDecision (rule : SecurityRule) (moduleName methodName : String)
    (isTTY ttyDecision : Bool) (sessionKey : Option String) (q : ApprovalQueue)
    (now : Nat) : Bool × ApprovalQueue :=
  match rule.action with
  | .ALLOW => (true, q)
  | .DENY => (false, q)
  | .ASK => judge isTTY ttyDecision sessionKey moduleName methodName q now

/-- `rule.description || 'No description provided.'` (an empty string is
falsy in JavaScript). -/
def detailOf (rule : SecurityRule) : String :=
  match rule.description with
  | some d => if d.isEmpty then "No description provided." else d
  | none => "No description provided."

/-- The channel-mode retry instructions of `Interceptor.evaluate`,
branching on whether the `clawbands_respond` tool was registered. -/
def channelInstructions (respondToolAvailable : Bool)
    (moduleName methodName : String) : String :=
  if respondToolAvailable then
    "Ask the user: YES, NO, or ALLOW (auto-approve for 15 min).\n" ++
      "- YES → clawbands_respond(\x7b decision: \"yes\" \x7d), then retry.\n" ++
      "- NO → clawbands_respond(\x7b decision: \"no\" \x7d). Do NOT retry.\n" ++
      "- ALLOW → clawbands_respond(\x7b decision: \"allow\" \x7d), then retry. " ++
      "Auto-approves this action for 15 minutes."
  else
    "Ask the user YES or NO.\n" ++
      "- If YES: call " ++ moduleName ++ "." ++ methodName ++
      "() again exactly as before.\n" ++
      "- If NO: do NOT call the tool again. Tell the user the action was cancelled."

/-- `Interceptor.evaluate`: resolve the rule, execute the decision and, when
denied, fail with the channel-mode approval message or the plain security
violation. The audit/statistics reporting is fire-and-forget I/O with
failures swallowed, so it does not appear in the state. -/
def evaluate (policy : SecurityPolicy) (moduleName methodName : String)
    (isTTY ttyDecision respondToolAvailable : Bool) (sessionKey : Option String)
    (q : ApprovalQueue) (now : Nat) : Except String Unit × ApprovalQueue :=
  let rule := lookupRule policy moduleName methodName
  let r := executeDecision rule moduleName methodName isTTY ttyDecision sessionKey q now
  if r.1 then (.ok (), r.2)
  else
    let detail := detailOf rule
    if !isTTY && sessionTruthy sessionKey then
      (.error ("[ClawBands:APPROVAL_REQUIRED] " ++ moduleName ++ "." ++ methodName ++
          "() is blocked pending human approval. Risk: " ++ detail ++ "\n" ++
          channelInstructions respondToolAvailable moduleName methodName), r.2)
    else
      (.error ("ClawBands Security Violation: " ++ moduleName ++ "." ++ methodName ++
          "() was DENIED. " ++ detail), r.2)

/-- The per-key test `approve` applies: the key's entry (if any) is pending
and unexpired at `now`. Abbreviates the loop condition for statements. -/
def pendingLive (now : Nat) (es : List (String × ApprovalEntry)) (k : String) : Bool :=
  match mget es k with
  | some e => decide (e.status = .pending) && decide (now < e.expiresAt)
  | none => false

/-- Entry-level form of `pendingLive` together with the session filter:
the pair belongs to the session's key space and is pending and unexpired. -/
def sessionPendingLive (sessionKey : String) (now : Nat)
    (p : String × ApprovalEntry) : Bool :=
  strStartsWith p.1 (sessionKey ++ "::") && decide (p.2.status = .pending) &&
    decide (now < p.2.expiresAt)

/-- `DEFAULT_POLICY` of config.ts. -/
def DEFAULT_POLICY : SecurityPolicy :=
  { defaultAction := .ASK
    modules :=
      [ ("FileSystem",
          [ ("read", ⟨.ALLOW, some "Read-only access is generally safe"⟩),
            ("write", ⟨.ASK, some "Modification of files requires approval"⟩),
            ("delete", ⟨.DENY, some "Deletion is strictly prohibited"⟩) ]),
        ("Shell",
          [ ("bash", ⟨.ASK, some "Shell command execution risk"⟩),
            ("exec", ⟨.ASK, some "Arbitrary Code Execution (RCE) risk"⟩),
            ("spawn", ⟨.ASK, some "Process spawning risk"⟩) ]),
        ("Network",
          [ ("fetch", ⟨.ASK, some "Potential data exfiltration"⟩),
            ("request", ⟨.ASK, some "HTTP request may leak data"⟩) ]) ] }

/-! ### Concrete states used by counterexamples and witnesses -/

/-- A freshly constructed queue (default TTL, no entries). -/
def emptyQ : ApprovalQueue :=
  { entries := [], blanketAllows := [], lastCleanup := 0, ttl := DEFAULT_TTL_MS }

/-- A pending entry whose session key `"a::b"` itself contains the `::`
separator, so its composite key extends the key space of session `"a"`. -/
def collideEntry : ApprovalEntry :=
  { sessionKey := "a::b", moduleName := "M", methodName := "m",
    status := .pending, createdAt := 0, expiresAt := 100 }

/-- A queue holding only `collideEntry` under its composite key. -/
def collideQ : ApprovalQueue :=
  { entries := [(qkey "a::b" "M" "m", collideEntry)], blanketAllows := [],
    lastCleanup := 0, ttl := DEFAULT_TTL_MS }

/-- A queue with an active blanket allow for `s :: Network.fetch` (15 min)
and no entries, as `handleRespondTool`'s ALLOW branch leaves behind once the
one-shot approvals are consumed. -/
def blanketQ : ApprovalQueue :=
  { entries := [], blanketAllows := [(qkey "s" "Network" "fetch", 900000)],
    lastCleanup := 0, ttl := DEFAULT_TTL_MS }

/-- An approved, unexpired entry for session `"s2"`. -/
def approvedEntry : ApprovalEntry :=
  { sessionKey := "s2", moduleName := "Shell", methodName := "bash",
    status := .approved, createdAt := 0, expiresAt := 100 }

/-- A queue holding only `approvedEntry`. -/
def approvedQ : ApprovalQueue :=
  { entries := [(qkey "s2" "Shell" "bash", approvedEntry)], blanketAllows := [],
    lastCleanup := 0, ttl := DEFAULT_TTL_MS }

/-- A queue holding one live pending entry for session `"s"`. -/
def pendQ : ApprovalQueue :=
  { entries := [(qkey "s" "Network" "fetch",
      { sessionKey := "s", moduleName := "Network", methodName := "fetch",
        status := .pending, createdAt := 0, expiresAt := 100000 })],
    blanketAllows := [], lastCleanup := 0, ttl := DEFAULT_TTL_MS }

/-! ### Association-list (Map) lemmas -/

theorem mget_mset_self {α : Type} (l : List (String × α)) (k : String) (v : α) :
    mget (mset l k v) k = some v := by
  induction l with
  | nil => simp [mget, mset]
  | cons p rest ih =>
      obtain ⟨k0, v0⟩ := p
      by_cases h : k0 = k
      · simp [mset, h, mget]
      · simp [mset, h, mget, ih]

theorem mget_mset_ne {α : Type} (l : List (String × α)) (k k' : String) (v : α)
    (h : k ≠ k') : mget (mset l k v) k' = mget l k' := by
  induction l with
  | nil => simp [mget, mset, h]
  | cons p rest ih =>
      obtain ⟨k0, v0⟩ := p
      by_cases hk : k0 = k
      · subst hk; simp [mset, mget, h]
      · simp [mset, hk, mget, ih]

theorem mget_mdel_self {α : Type} (l : List (String × α)) (k : String) :
    mget (mdel l k) k = none := by
  induction l with
  | nil => simp [mget, mdel]
  | cons p rest ih =>
      obtain ⟨k0, v0⟩ := p
      by_cases hk : k0 = k
      · subst hk; simpa [mdel, List.filter] using ih
      · simpa [mdel, List.filter, hk, mget] using ih

theorem mget_mdel_ne {α : Type} (l : List (String × α)) (k k' : String)
    (h : k ≠ k') : mget (mdel l k) k' = mget l k' := by
  induction l with
  | nil => simp [mget, mdel]
  | cons p rest ih =>
      obtain ⟨k0, v0⟩ := p
      by_cases hk : k0 = k
      · subst hk; simpa [mdel, List.filter, mget, h] using ih
      · by_cases hk' : k0 = k'
        · subst hk'; simp [mdel, List.filter, hk, mget]
        · simpa [mdel, List.filter, hk, mget, hk'] using ih

theorem mget_mdel_some {α : Type} (l : List (String × α)) (k k' : String) (v : α)
    (h : mget (mdel l k) k' = some v) : mget l k' = some v := by
  by_cases hk : k = k'
  · subst hk; rw [mget_mdel_self] at h; cases h
  · rwa [mget_mdel_ne l k k' hk] at h

theorem mget_filter {α : Type} (p : String × α → Bool) (l : List (String × α))
    (k : String) (v : α) (h : mget l k = some v) (hp : p (k, v) = true) :
    mget (l.filter p) k = some v := by
  induction l with
  | nil => simp [mget] at h
  | cons q rest ih =>
      obtain ⟨k0, v0⟩ := q
      by_cases hk : k0 = k
      · subst hk
        simp only [mget, if_pos rfl] at h
        injection h with h; subst h
        simp [List.filter, hp, mget]
      · simp only [mget, if_neg hk] at h
        by_cases hq : p (k0, v0) = true
        · simp [List.filter, hq, mget, hk, ih h]
        · simp only [List.filter]
          rw [Bool.not_eq_true] at hq
          simp [hq, ih h]

theorem mem_keys_of_mget {α : Type} (l : List (String × α)) (k : String) (v : α)
    (h : mget l k = some v) : k ∈ l.map Prod.fst := by
  induction l with
  | nil => simp [mget] at h
  | cons p rest ih =>
      obtain ⟨k0, v0⟩ := p
      by_cases hk : k0 = k
      · subst hk; simp
      · simp only [mget, if_neg hk] at h
        simp [ih h]

theorem mem_keys_mset {α : Type} (l : List (String × α)) (k k' : String) (v : α)
    (h : k' ∈ (mset l k v).map Prod.fst) : k' ∈ l.map Prod.fst ∨ k' = k := by
  induction l with
  | nil =>
      simp only [mset, List.map_cons, List.map_nil, List.mem_singleton] at h
      exact Or.inr h
  | cons p rest ih =>
      obtain ⟨k0, v0⟩ := p
      by_cases hk : k0 = k
      · subst hk
        simp only [mset, eq_self_iff_true, if_true, List.map_cons, List.mem_cons] at h
        rcases h with h1 | h1
        · exact Or.inr h1
        · exact Or.inl (List.mem_cons_of_mem _ h1)
      · simp only [mset, if_neg hk, List.map_cons, List.mem_cons] at h
        rcases h with h1 | h1
        · exact Or.inl (List.mem_cons.mpr (Or.inl h1))
        · rcases ih h1 with h2 | h2
          · exact Or.inl (List.mem_cons_of_mem _ h2)
          · exact Or.inr h2

theorem nodup_keys_mset {α : Type} (l : List (String × α)) (k : String) (v : α)
    (h : (l.map Prod.fst).Nodup) : ((mset l k v).map Prod.fst).Nodup := by
  induction l with
  | nil => simp [mset]
  | cons p rest ih =>
      obtain ⟨k0, v0⟩ := p
      simp only [List.map_cons, List.nodup_cons] at h
      by_cases hk : k0 = k
      · subst hk
        simpa [mset, List.nodup_cons] using h
      · simp only [mset, if_neg hk, List.map_cons, List.nodup_cons]
        refine ⟨fun hmem => ?_, ih h.2⟩
        rcases mem_keys_mset rest k k0 v hmem with h2 | h2
        · exact h.1 h2
        · exact hk h2

theorem nodup_keys_filter {α : Type} (p : String × α → Bool)
    (l : List (String × α)) (h : (l.map Prod.fst).Nodup) :
    ((l.filter p).map Prod.fst).Nodup :=
  List.Nodup.sublist (List.Sublist.map Prod.fst (List.filter_sublist l)) h

theorem mget_of_mem_nodup {α : Type} (l : List (String × α)) (p : String × α)
    (hN : (l.map Prod.fst).Nodup) (hmem : p ∈ l) : mget l p.1 = some p.2 := by
  induction l with
  | nil => cases hmem
  | cons q rest ih =>
      obtain ⟨k0, v0⟩ := q
      simp only [List.map_cons, List.nodup_cons] at hN
      rcases List.mem_cons.mp hmem with rfl | hmem2
      · simp [mget]
      · have hne : k0 ≠ p.1 := by
          intro hkeq
          exact hN.1 (hkeq ▸ List.mem_map_of_mem Prod.fst hmem2)
        simp only [mget, if_neg hne]
        exact ih hN.2 hmem2

/-! ### Loop lemmas for approve / deny -/

theorem approveLoop_mget_notMem (es : List (String × ApprovalEntry))
    (ks : List String) (now ttl : Nat) (k : String) (h : k ∉ ks) :
    mget (approveLoop es ks now ttl).1 k = mget es k := by
  induction ks generalizing es with
  | nil => simp [approveLoop]
  | cons k0 rest ih =>
      have hk : k ≠ k0 ∧ k ∉ rest := by
        constructor
        · intro he; exact h (he ▸ List.mem_cons_self k0 rest)
        · intro hm; exact h (List.mem_cons_of_mem _ hm)
      cases hm : mget es k0 with
      | none => simp only [approveLoop, hm]; exact ih _ hk.2
      | some e =>
          by_cases hc : e.status = .pending ∧ now < e.expiresAt
          · simp only [approveLoop, hm, if_pos hc]
            rw [ih _ hk.2, mget_mset_ne _ _ _ _ (Ne.symm hk.1)]
          · simp only [approveLoop, hm, if_neg hc]
            exact ih _ hk.2

theorem approveLoop_mget_mem (es : List (String × ApprovalEntry))
    (ks : List String) (now ttl : Nat) (k : String) (e : ApprovalEntry)
    (hN : ks.Nodup) (hk : k ∈ ks) (hget : mget es k = some e) :
    mget (approveLoop es ks now ttl).1 k =
      (if e.status = .pending ∧ now < e.expiresAt then
        some { e with status := .approved, expiresAt := now + ttl }
      else some e) := by
  induction ks generalizing es with
  | nil => cases hk
  | cons k0 rest ih =>
      rcases List.nodup_cons.mp hN with ⟨hnin, hN2⟩
      rcases List.mem_cons.mp hk with rfl | hmem
      · by_cases hc : e.status = .pending ∧ now < e.expiresAt
        · simp only [approveLoop, hget, if_pos hc]
          rw [approveLoop_mget_notMem _ _ _ _ _ hnin, mget_mset_self]
        · simp only [approveLoop, hget, if_neg hc]
          rw [approveLoop_mget_notMem _ _ _ _ _ hnin, hget]
      · have hkk0 : k0 ≠ k := fun hkeq => hnin (hkeq ▸ hmem)
        cases hm : mget es k0 with
        | none => simp only [approveLoop, hm]; exact ih es hN2 hmem hget
        | some e0 =>
            by_cases hc : e0.status = .pending ∧ now < e0.expiresAt
            · simp only [approveLoop, hm, if_pos hc]
              exact ih _ hN2 hmem (by rw [mget_mset_ne _ _ _ _ hkk0]; exact hget)
            · simp only [approveLoop, hm, if_neg hc]
              exact ih es hN2 hmem hget

theorem approveLoop_count (es : List (String × ApprovalEntry)) (ks : List String)
    (now ttl : Nat) (hN : ks.Nodup) :
    (approveLoop es ks now ttl).2 = ks.countP (pendingLive now es) := by
  induction ks generalizing es with
  | nil => simp [approveLoop]
  | cons k0 rest ih =>
      rcases List.nodup_cons.mp hN with ⟨hnin, hN2⟩
      cases hm : mget es k0 with
      | none =>
          simp only [approveLoop, hm]
          rw [ih es hN2, List.countP_cons]
          simp [pendingLive, hm]
      | some e =>
          by_cases hc : e.status = .pending ∧ now < e.expiresAt
          · simp only [approveLoop, hm, if_pos hc]
            rw [ih _ hN2, List.countP_cons]
            have hcong : ∀ k ∈ rest,
                pendingLive now (mset es k0
                  { e with status := .approved, expiresAt := now + ttl }) k ↔
                pendingLive now es k := by
              intro k hkmem
              have hkk0 : k0 ≠ k := fun hkeq => hnin (hkeq ▸ hkmem)
              unfold pendingLive
              rw [mget_mset_ne _ _ _ _ hkk0]
            rw [List.countP_congr hcong]
            simp [pendingLive, hm, hc.1, hc.2]
          · simp only [approveLoop, hm, if_neg hc]
            rw [ih es hN2, List.countP_cons]
            have hfalse : pendingLive now es k0 = false := by
              unfold pendingLive
              rw [hm]
              rcases Decidable.not_and_iff_or_not.mp hc with h1 | h1 <;> simp [h1]
            simp [hfalse]

theorem denyLoop_mget_notMem (es : List (String × ApprovalEntry))
    (ks : List String) (k : String) (h : k ∉ ks) :
    mget (denyLoop es ks).1 k = mget es k := by
  induction ks generalizing es with
  | nil => simp [denyLoop]
  | cons k0 rest ih =>
      have hk : k ≠ k0 ∧ k ∉ rest := by
        constructor
        · intro he; exact h (he ▸ List.mem_cons_self k0 rest)
        · intro hm; exact h (List.mem_cons_of_mem _ hm)
      cases hm : mget es k0 with
      | none => simp only [denyLoop, hm]; exact ih _ hk.2
      | some e =>
          by_cases hp : e.status = .pending
          · simp only [denyLoop, hm, if_pos hp]
            rw [ih _ hk.2, mget_mdel_ne _ _ _ (Ne.symm hk.1)]
          · simp only [denyLoop, hm, if_neg hp]
            exact ih _ hk.2

theorem denyLoop_mget_of_not_pending (es : List (String × ApprovalEntry))
    (ks : List String) (k : String) (e : ApprovalEntry)
    (hget : mget es k = some e) (h : ¬ e.status = .pending) :
    mget (denyLoop es ks).1 k = some e := by
  induction ks generalizing es with
  | nil => simpa [denyLoop] using hget
  | cons k0 rest ih =>
      cases hm : mget es k0 with
      | none => simp only [denyLoop, hm]; exact ih es hget
      | some e0 =>
          by_cases hp : e0.status = .pending
          · have hne : k0 ≠ k := by
              rintro rfl
              rw [hget] at hm
              injection hm with hm2
              exact h (hm2 ▸ hp)
            simp only [denyLoop, hm, if_pos hp]
            exact ih _ (by rw [mget_mdel_ne _ _ _ hne]; exact hget)
          · simp only [denyLoop, hm, if_neg hp]
            exact ih es hget

/-! ### Basic facts about consume / consumePending -/

theorem consume_false_state (q : ApprovalQueue) (s m meth : String) (now : Nat)
    (h : (consume q s m meth now).1 = false) : (consume q s m meth now).2 = q := by
  unfold consume at h ⊢
  cases hm : mget q.entries (qkey s m meth) with
  | none => simp [hm]
  | some e =>
      simp only [hm] at h ⊢
      by_cases hc : e.status = .approved ∧ now < e.expiresAt
      · simp [hc] at h
      · simp [hc]

theorem consumePending_false_state (q : ApprovalQueue) (s m meth : String)
    (now : Nat) (h : (consumePending q s m meth now).1 = false) :
    (consumePending q s m meth now).2 = q := by
  unfold consumePending at h ⊢
  cases hm : mget q.entries (qkey s m meth) with
  | none => simp [hm]
  | some e =>
      simp only [hm] at h ⊢
      by_cases hc : e.status = .pending ∧ now < e.expiresAt
      · by_cases ha : CONSUME_MAX_AGE_MS < now - e.createdAt
        · simp [hc, ha]
        · simp [hc, ha] at h
      · simp [hc]

/-! ### Bridge lemmas -/

theorem countP_keysForSession (es : List (String × ApprovalEntry)) (s : String)
    (now : Nat) (hN : (es.map Prod.fst).Nodup) :
    (keysForSession es s).countP (pendingLive now es) =
      es.countP (sessionPendingLive s now) := by
  unfold keysForSession
  rw [List.countP_filter, List.countP_map]
  apply List.countP_congr
  intro p hp
  have hm := mget_of_mem_nodup es p hN hp
  simp only [Function.comp, pendingLive, sessionPendingLive, hm,
    Bool.and_eq_true, decide_eq_true_eq]
  tauto

theorem maybeCleanup_ttl (q : ApprovalQueue) (now : Nat) :
    (maybeCleanup q now).ttl = q.ttl := by
  unfold maybeCleanup cleanup
  split <;> rfl

theorem maybeCleanup_mget_live (q : ApprovalQueue) (now : Nat) (k : String)
    (e : ApprovalEntry) (hget : mget q.entries k = some e)
    (hlive : now < e.expiresAt) :
    mget (maybeCleanup q now).entries k = some e := by
  unfold maybeCleanup cleanup
  split
  · exact mget_filter _ _ _ _ hget (by simpa using hlive)
  · exact hget

theorem maybeCleanup_nodup (q : ApprovalQueue) (now : Nat)
    (hN : (q.entries.map Prod.fst).Nodup) :
    ((maybeCleanup q now).entries.map Prod.fst).Nodup := by
  unfold maybeCleanup cleanup
  split
  · exact nodup_keys_filter _ _ hN
  · exact hN

theorem nodup_keys_request (q : ApprovalQueue) (s m meth : String) (now : Nat)
    (hN : (q.entries.map Prod.fst).Nodup) :
    ((request q s m meth now).2.entries.map Prod.fst).Nodup := by
  have h1 := maybeCleanup_nodup q now hN
  unfold request
  cases hm : mget (maybeCleanup q now).entries (qkey s m meth) with
  | some e =>
      simp only [hm]
      split
      · exact h1
      · exact nodup_keys_mset _ _ _ h1
  | none =>
      simp only [hm]
      exact nodup_keys_mset _ _ _ h1

theorem mget_eq_none_of_not_mem {α : Type} (l : List (String × α)) (k : String)
    (h : k ∉ l.map Prod.fst) : mget l k = none := by
  cases hm : mget l k with
  | none => rfl
  | some v => exact absurd (mem_keys_of_mget l k v hm) h

theorem mget_filter_eq_nodup {α : Type} (p : String × α → Bool)
    (l : List (String × α)) (k : String) (hN : (l.map Prod.fst).Nodup) :
    mget (l.filter p) k =
      match mget l k with
      | some v => if p (k, v) then some v else none
      | none => none := by
  induction l with
  | nil => simp [mget]
  | cons q rest ih =>
      obtain ⟨k0, v0⟩ := q
      simp only [List.map_cons, List.nodup_cons] at hN
      by_cases hk : k0 = k
      · subst hk
        have hrest : mget (rest.filter p) k0 = none := by
          have h1 : k0 ∉ (rest.filter p).map Prod.fst := by
            intro hmem
            rcases List.mem_map.mp hmem with ⟨pr, hpr, hfst⟩
            exact hN.1 (hfst ▸ List.mem_map_of_mem Prod.fst (List.mem_of_mem_filter hpr))
          exact mget_eq_none_of_not_mem _ _ h1
        by_cases hp : p (k0, v0) = true
        · simp [List.filter, hp, mget]
        · rw [Bool.not_eq_true] at hp
          simp [List.filter, hp, mget, hrest]
      · by_cases hp : p (k0, v0) = true
        · simp only [List.filter, hp, mget, if_neg hk]
          exact ih hN.2
        · rw [Bool.not_eq_true] at hp
          simp only [List.filter, hp, mget, if_neg hk]
          exact ih hN.2

theorem isPrefixOf_append_self (l t : List Char) : l.isPrefixOf (l ++ t) = true := by
  induction l with
  | nil => simp [List.isPrefixOf]
  | cons a l2 ih => simp [List.isPrefixOf, ih]

theorem strStartsWith_qkey (s m meth : String) :
    strStartsWith (qkey s m meth) (s ++ "::") = true := by
  have hdata : (qkey s m meth).data = (s ++ "::").data ++ (m.data ++ ".".data ++ meth.data) := by
    simp [qkey, String.data_append, List.append_assoc]
  unfold strStartsWith
  rw [hdata]
  exact isPrefixOf_append_self _ _

theorem consume_mono (q : ApprovalQueue) (s m meth : String) (now : Nat)
    (k : String) (e : ApprovalEntry)
    (h : mget (consume q s m meth now).2.entries k = some e) :
    mget q.entries k = some e := by
  unfold consume at h
  cases hm : mget q.entries (qkey s m meth) with
  | none => simpa [hm] using h
  | some e0 =>
      simp only [hm] at h
      by_cases hc : e0.status = .approved ∧ now < e0.expiresAt
      · rw [if_pos hc] at h
        exact mget_mdel_some _ _ _ _ h
      · rwa [if_neg hc] at h

theorem consumePending_mono (q : ApprovalQueue) (s m meth : String) (now : Nat)
    (k : String) (e : ApprovalEntry)
    (h : mget (consumePending q s m meth now).2.entries k = some e) :
    mget q.entries k = some e := by
  unfold consumePending at h
  cases hm : mget q.entries (qkey s m meth) with
  | none => simpa [hm] using h
  | some e0 =>
      simp only [hm] at h
      by_cases hc : e0.status = .pending ∧ now < e0.expiresAt
      · rw [if_pos hc] at h
        by_cases ha : CONSUME_MAX_AGE_MS < now - e0.createdAt
        · rwa [if_pos ha] at h
        · rw [if_neg ha] at h
          exact mget_mdel_some _ _ _ _ h
      · rwa [if_neg hc] at h

theorem consume_blankets (q : ApprovalQueue) (s m meth : String) (now : Nat) :
    (consume q s m meth now).2.blanketAllows = q.blanketAllows := by
  unfold consume
  cases hm : mget q.entries (qkey s m meth) with
  | none => simp [hm]
  | some e0 =>
      by_cases hc : e0.status = .approved ∧ now < e0.expiresAt
      · simp [hm, hc]
      · simp [hm, hc]

theorem consumePending_blankets (q : ApprovalQueue) (s m meth : String) (now : Nat) :
    (consumePending q s m meth now).2.blanketAllows = q.blanketAllows := by
  unfold consumePending
  cases hm : mget q.entries (qkey s m meth) with
  | none => simp [hm]
  | some e0 =>
      by_cases hc : e0.status = .pending ∧ now < e0.expiresAt
      · by_cases ha : CONSUME_MAX_AGE_MS < now - e0.createdAt
        · simp [hm, hc, ha]
        · simp [hm, hc, ha]
      · simp [hm, hc]

theorem request_pending (q : ApprovalQueue) (s m meth : String) (now : Nat) :
    ∃ e, mget (request q s m meth now).2.entries (qkey s m meth) = some e ∧
      e.status = .pending := by
  unfold request
  cases hm : mget (maybeCleanup q now).entries (qkey s m meth) with
  | some e0 =>
      simp only [hm]
      split
      · rename_i hc
        exact ⟨e0, hm, hc.1⟩
      · exact ⟨_, mget_mset_self _ _ _, rfl⟩
  | none =>
      simp only [hm]
      exact ⟨_, mget_mset_self _ _ _, rfl⟩

theorem request_pending_live (q : ApprovalQueue) (s m meth : String) (now : Nat)
    (httl : 0 < q.ttl) :
    ∃ e, mget (request q s m meth now).2.entries (qkey s m meth) = some e ∧
      e.status = .pending ∧ now < e.expiresAt := by
  have httl1 : 0 < (maybeCleanup q now).ttl := by rwa [maybeCleanup_ttl]
  unfold request
  cases hm : mget (maybeCleanup q now).entries (qkey s m meth) with
  | some e0 =>
      simp only [hm]
      split
      · rename_i hc
        exact ⟨e0, hm, hc.1, hc.2.1⟩
      · exact ⟨_, mget_mset_self _ _ _, rfl, by simpa using httl1⟩
  | none =>
      simp only [hm]
      exact ⟨_, mget_mset_self _ _ _, rfl, by simpa using httl1⟩

theorem request_ttl (q : ApprovalQueue) (s m meth : String) (now : Nat) :
    (request q s m meth now).2.ttl = q.ttl := by
  unfold request
  cases hm : mget (maybeCleanup q now).entries (qkey s m meth) with
  | some e =>
      simp only [hm]
      split
      · exact maybeCleanup_ttl q now
      · exact maybeCleanup_ttl q now
  | none =>
      simp only [hm]
      exact maybeCleanup_ttl q now

/-! ### The claims -/

/-- C8: rule lookup is a total function: an exact module+method rule is
returned unchanged, and otherwise the policy's `defaultAction` is returned
with the fallback description — whose actual text is
"No specific rule defined for module.method" (see the counterexample for
the claim's exact wording). -/
theorem C8_lookupRule_total (policy : SecurityPolicy) (m meth : String) :
    (∀ rules r, mget policy.modules m = some rules → mget rules meth = some r →
        lookupRule policy m meth = r) ∧
    ((∀ rules, mget policy.modules m = some rules → mget rules meth = none) →
        lookupRule policy m meth =
          { action := policy.defaultAction,
            description :=
              some ("No specific rule defined for " ++ m ++ "." ++ meth) }) := by
  constructor
  · intro rules r h1 h2
    simp [lookupRule, h1, h2]
  · intro h
    cases hm : mget policy.modules m with
    | some rules => simp [lookupRule, hm, h rules hm]
    | none => simp [lookupRule, hm]

/-- C8 counterexample: for an unconfigured pair the fallback description
reads "No specific rule defined for Unknown.x", not the claim's
"No specific rule for Unknown.x". -/
theorem C8_description_cex :
    lookupRule DEFAULT_POLICY "Unknown" "x" =
      { action := .ASK,
        description := some "No specific rule defined for Unknown.x" } ∧
    (lookupRule DEFAULT_POLICY "Unknown" "x").description ≠
      some "No specific rule for Unknown.x" := by
  constructor
  · decide
  · decide

/-- C2: `consumePending` deletes and returns true exactly for a pending,
unexpired entry whose age is at most the 60 s freshness window; a stale
pending entry is refused and left in place; a missing or expired key gives
false with no side effect; and after a stale refusal, `request` installs a
fresh pending entry whose `createdAt` is the current instant. -/
theorem C2_consumePending_window (q : ApprovalQueue) (s m meth : String)
    (now : Nat) :
    (∀ e, mget q.entries (qkey s m meth) = some e → e.status = .pending →
        now < e.expiresAt → now - e.createdAt ≤ CONSUME_MAX_AGE_MS →
        consumePending q s m meth now =
          (true, { q with entries := mdel q.entries (qkey s m meth) })) ∧
    (∀ e, mget q.entries (qkey s m meth) = some e → e.status = .pending →
        now < e.expiresAt → CONSUME_MAX_AGE_MS < now - e.createdAt →
        consumePending q s m meth now = (false, q)) ∧
    (mget q.entries (qkey s m meth) = none →
        consumePending q s m meth now = (false, q)) ∧
    (∀ e, mget q.entries (qkey s m meth) = some e → e.expiresAt ≤ now →
        consumePending q s m meth now = (false, q)) ∧
    (∀ e, mget q.entries (qkey s m meth) = some e → e.status = .pending →
        now < e.expiresAt → CONSUME_MAX_AGE_MS < now - e.createdAt →
        mget (request q s m meth now).2.entries (qkey s m meth) =
          some { sessionKey := s, moduleName := m, methodName := meth,
                 status := .pending, createdAt := now, expiresAt := now + q.ttl }) := by
  refine ⟨?_, ?_, ?_, ?_, ?_⟩
  · intro e hm hp hl ha
    have hna : ¬ CONSUME_MAX_AGE_MS < now - e.createdAt := not_lt.mpr ha
    simp [consumePending, hm, hp, hl, hna]
  · intro e hm hp hl ha
    simp [consumePending, hm, hp, hl, ha]
  · intro hm
    simp [consumePending, hm]
  · intro e hm hex
    have hno : ¬ (e.status = .pending ∧ now < e.expiresAt) := by
      rintro ⟨-, h2⟩
      exact absurd h2 (not_lt.mpr hex)
    simp [consumePending, hm, hno]
  · intro e hm hp hl ha
    have hm1 : mget (maybeCleanup q now).entries (qkey s m meth) = some e :=
      maybeCleanup_mget_live q now _ e hm hl
    have hcond : ¬ (e.status = .pending ∧ now < e.expiresAt ∧
        now - e.createdAt ≤ CONSUME_MAX_AGE_MS) := by
      rintro ⟨-, -, h3⟩
      exact absurd ha (not_lt.mpr h3)
    unfold request
    simp only [hm1, if_neg hcond]
    rw [mget_mset_self, maybeCleanup_ttl]

/-- C3: `consume` deletes and returns true iff an approved, unexpired entry
sits at the composite key; on false the queue is untouched; after a bare
`request` it returns false; after `request` then `approve` the first
`consume` succeeds and a second one on the same key fails (single use). -/
theorem C3_consume_single_use (q : ApprovalQueue) (s m meth : String)
    (now : Nat) :
    ((consume q s m meth now).1 = true ↔
      ∃ e, mget q.entries (qkey s m meth) = some e ∧ e.status = .approved ∧
        now < e.expiresAt) ∧
    ((consume q s m meth now).1 = true →
      (consume q s m meth now).2 =
        { q with entries := mdel q.entries (qkey s m meth) }) ∧
    ((consume q s m meth now).1 = false → (consume q s m meth now).2 = q) ∧
    ((consume (request q s m meth now).2 s m meth now).1 = false) ∧
    (∀ hN : (q.entries.map Prod.fst).Nodup, 0 < q.ttl →
      (consume (approve (request q s m meth now).2 s now).2 s m meth now).1 = true ∧
      (consume (consume (approve (request q s m meth now).2 s now).2
          s m meth now).2 s m meth now).1 = false) := by
  refine ⟨?_, ?_, consume_false_state q s m meth now, ?_, ?_⟩
  · constructor
    · intro h
      unfold consume at h
      cases hm : mget q.entries (qkey s m meth) with
      | none => simp [hm] at h
      | some e =>
          by_cases hc : e.status = .approved ∧ now < e.expiresAt
          · exact ⟨e, rfl, hc⟩
          · simp [hm, hc] at h
    · rintro ⟨e, hm, hc⟩
      simp [consume, hm, hc.1, hc.2]
  · intro h
    unfold consume at h ⊢
    cases hm : mget q.entries (qkey s m meth) with
    | none => simp [hm] at h
    | some e =>
        by_cases hc : e.status = .approved ∧ now < e.expiresAt
        · simp [hm, hc]
        · simp [hm, hc] at h
  · obtain ⟨e, he, hp⟩ := request_pending q s m meth now
    have hne : ¬ (e.status = .approved ∧ now < e.expiresAt) := by
      rintro ⟨h1, -⟩
      rw [hp] at h1
      cases h1
    simp [consume, he, hne]
  · intro hN httl
    obtain ⟨e1, he1, hp1, hl1⟩ := request_pending_live q s m meth now httl
    have hN1 : ((request q s m meth now).2.entries.map Prod.fst).Nodup :=
      nodup_keys_request q s m meth now hN
    have hN2 : ((maybeCleanup (request q s m meth now).2 now).entries.map
        Prod.fst).Nodup := maybeCleanup_nodup _ _ hN1
    have he2 : mget (maybeCleanup (request q s m meth now).2 now).entries
        (qkey s m meth) = some e1 :=
      maybeCleanup_mget_live _ _ _ _ he1 hl1
    have hkmem : qkey s m meth ∈
        keysForSession (maybeCleanup (request q s m meth now).2 now).entries s :=
      List.mem_filter.mpr ⟨mem_keys_of_mget _ _ _ he2, strStartsWith_qkey s m meth⟩
    have hksN : (keysForSession (maybeCleanup (request q s m meth now).2
        now).entries s).Nodup := List.Nodup.filter _ hN2
    have happrov := approveLoop_mget_mem
      (maybeCleanup (request q s m meth now).2 now).entries
      (keysForSession (maybeCleanup (request q s m meth now).2 now).entries s)
      now (maybeCleanup (request q s m meth now).2 now).ttl
      (qkey s m meth) e1 hksN hkmem he2
    rw [if_pos ⟨hp1, hl1⟩] at happrov
    have httl2 : (maybeCleanup (request q s m meth now).2 now).ttl = q.ttl := by
      rw [maybeCleanup_ttl, request_ttl]
    have hget2 : mget (approve (request q s m meth now).2 s now).2.entries
        (qkey s m meth) =
        some { e1 with status := .approved, expiresAt := now + q.ttl } := by
      have h3 : mget (approve (request q s m meth now).2 s now).2.entries (qkey s m meth) = some { e1 with status := Status.approved, expiresAt := now + (maybeCleanup (request q s m meth now).2 now).ttl } := by
        simpa [approve] using happrov
      rwa [httl2] at h3
    have hlt : now < now + q.ttl := Nat.lt_add_of_pos_right httl
    constructor
    · simp [consume, hget2, hlt]
    · have h1 : (consume (approve (request q s m meth now).2 s now).2
          s m meth now).2 =
          { (approve (request q s m meth now).2 s now).2 with
            entries := mdel (approve (request q s m meth now).2 s now).2.entries
              (qkey s m meth) } := by
        simp [consume, hget2, hlt]
      rw [h1]
      simp [consume, mget_mdel_self]

/-- C4: `request` is idempotent inside the freshness window — the live
pending entry (its `createdAt` included) is preserved and the key is
returned; otherwise a fresh pending entry with `createdAt = now` and
`expiresAt = now + TTL` is installed; key uniqueness is preserved, so two
requests never yield two live entries; the default TTL is 120 s. -/
theorem C4_request_idempotent (q : ApprovalQueue) (s m meth : String)
    (now : Nat) :
    (∀ e, mget q.entries (qkey s m meth) = some e → e.status = .pending →
        now < e.expiresAt → now - e.createdAt ≤ CONSUME_MAX_AGE_MS →
        (request q s m meth now).1 = qkey s m meth ∧
        mget (request q s m meth now).2.entries (qkey s m meth) = some e) ∧
    (∀ hN : (q.entries.map Prod.fst).Nodup,
      (∀ e, mget q.entries (qkey s m meth) = some e →
          ¬(e.status = .pending ∧ now < e.expiresAt ∧
            now - e.createdAt ≤ CONSUME_MAX_AGE_MS)) →
        mget (request q s m meth now).2.entries (qkey s m meth) =
          some { sessionKey := s, moduleName := m, methodName := meth,
                 status := .pending, createdAt := now,
                 expiresAt := now + q.ttl }) ∧
    (∀ hN : (q.entries.map Prod.fst).Nodup,
        ((request q s m meth now).2.entries.map Prod.fst).Nodup) ∧
    DEFAULT_TTL_MS = 120000 := by
  refine ⟨?_, ?_, fun hN => nodup_keys_request q s m meth now hN, rfl⟩
  · intro e hm hp hl ha
    have hm1 : mget (maybeCleanup q now).entries (qkey s m meth) = some e :=
      maybeCleanup_mget_live q now _ e hm hl
    unfold request
    simp [hm1, hp, hl, ha]
  · intro hN hhyp
    have h2 : ∀ e, mget (maybeCleanup q now).entries (qkey s m meth) = some e →
        ¬(e.status = .pending ∧ now < e.expiresAt ∧
          now - e.createdAt ≤ CONSUME_MAX_AGE_MS) := by
      intro e hm
      unfold maybeCleanup at hm
      split at hm
      · simp only [cleanup] at hm
        rw [mget_filter_eq_nodup _ _ _ hN] at hm
        cases hq : mget q.entries (qkey s m meth) with
        | none => rw [hq] at hm; cases hm
        | some v =>
            rw [hq] at hm
            simp only [] at hm
            split at hm
            · injection hm with hm2
              exact hm2 ▸ hhyp v hq
            · cases hm
      · exact hhyp e hm
    unfold request
    cases hq1 : mget (maybeCleanup q now).entries (qkey s m meth) with
    | none =>
        simp only [hq1]
        rw [mget_mset_self, maybeCleanup_ttl]
    | some e1 =>
        simp only [hq1, if_neg (h2 e1 hq1)]
        rw [mget_mset_self, maybeCleanup_ttl]

/-- C1: in channel mode the Arbitrator tries `consume` first (success means
approved with no entry ever added), else `consumePending` (likewise), and
only when both fail calls `request` to arm a pending wait and reports "not
approved". -/
theorem C1_judgeChannel_order (q : ApprovalQueue) (s m meth : String)
    (now : Nat) :
    ((consume q s m meth now).1 = true →
      judgeChannel q s m meth now = (true, (consume q s m meth now).2) ∧
      (∀ k e, mget (consume q s m meth now).2.entries k = some e →
        mget q.entries k = some e) ∧
      (consume q s m meth now).2.blanketAllows = q.blanketAllows) ∧
    ((consume q s m meth now).1 = false →
      (consumePending q s m meth now).1 = true →
      judgeChannel q s m meth now = (true, (consumePending q s m meth now).2) ∧
      (∀ k e, mget (consumePending q s m meth now).2.entries k = some e →
        mget q.entries k = some e) ∧
      (consumePending q s m meth now).2.blanketAllows = q.blanketAllows) ∧
    ((consume q s m meth now).1 = false →
      (consumePending q s m meth now).1 = false →
      judgeChannel q s m meth now = (false, (request q s m meth now).2) ∧
      ∃ e, mget (judgeChannel q s m meth now).2.entries (qkey s m meth) =
        some e ∧ e.status = .pending) := by
  refine ⟨?_, ?_, ?_⟩
  · intro h1
    refine ⟨?_, fun k e he => consume_mono q s m meth now k e he,
      consume_blankets q s m meth now⟩
    simp [judgeChannel, h1]
  · intro h1 h2
    have hst := consume_false_state q s m meth now h1
    refine ⟨?_, fun k e he => consumePending_mono q s m meth now k e he,
      consumePending_blankets q s m meth now⟩
    simp [judgeChannel, h1, hst, h2]
  · intro h1 h2
    have hst := consume_false_state q s m meth now h1
    have hst2 := consumePending_false_state q s m meth now h2
    have hjc : judgeChannel q s m meth now =
        (false, (request q s m meth now).2) := by
      simp [judgeChannel, h1, hst, h2, hst2]
    refine ⟨hjc, ?_⟩
    obtain ⟨e, he, hp⟩ := request_pending q s m meth now
    exact ⟨e, by rw [hjc]; exact he, hp⟩

/-- C6: headless ASK (no TTY, no session key) fails secure: `evaluate`
returns an error and the queue — entries and blanket allows alike — is
returned exactly unchanged; no pending entry is created. -/
theorem C6_headless_fail_secure (policy : SecurityPolicy) (m meth : String)
    (q : ApprovalQueue) (now : Nat) (ttyDecision respondToolAvailable : Bool)
    (hask : (lookupRule policy m meth).action = .ASK) :
    ∃ msg,
      evaluate policy m meth false ttyDecision respondToolAvailable none q now =
        (.error msg, q) := by
  refine ⟨"ClawBands Security Violation: " ++ m ++ "." ++ meth ++
    "() was DENIED. " ++ detailOf (lookupRule policy m meth), ?_⟩
  simp [evaluate, executeDecision, hask, judge, sessionTruthy]

/-- C6 witness: headless evaluation of Unknown.x under the default policy
(default action ASK) fails and leaves the empty queue untouched. -/
theorem C6_headless_fail_secure_witness :
    ∃ msg,
      evaluate DEFAULT_POLICY "Unknown" "x" false false false none emptyQ 0 =
        (.error msg, emptyQ) :=
  C6_headless_fail_secure DEFAULT_POLICY "Unknown" "x" emptyQ 0 false false
    (by decide)

/-- C7, the code against the claim: an active blanket allow is never
consulted by channel arbitration — with `hasBlanketAllow` answering true
and no queue entries, `judgeChannel` still reports "not approved", arms a
fresh pending entry, and `evaluate` fails. -/
theorem C7_blanket_allow_not_consulted :
    (hasBlanketAllow blanketQ "s" "Network" "fetch" 1000).1 = true ∧
    (judgeChannel blanketQ "s" "Network" "fetch" 1000).1 = false ∧
    mget (judgeChannel blanketQ "s" "Network" "fetch" 1000).2.entries
        (qkey "s" "Network" "fetch") =
      some { sessionKey := "s", moduleName := "Network", methodName := "fetch",
             status := .pending, createdAt := 1000, expiresAt := 121000 } ∧
    (∃ msg,
      evaluate DEFAULT_POLICY "Network" "fetch" false false false (some "s")
          blanketQ 1000 =
        (.error msg, (judgeChannel blanketQ "s" "Network" "fetch" 1000).2)) := by
  refine ⟨by decide, by decide, by decide, ?_⟩
  exact ⟨_, rfl⟩

/-- C9 counterexample: `deny("a")` deletes the pending entry of the distinct
session `"a::b"`, whose composite key happens to start with `"a::"`. -/
theorem C9_sessions_cex :
    ("a" : String) ≠ "a::b" ∧
    collideEntry.sessionKey = "a::b" ∧
    mget collideQ.entries (qkey "a::b" "M" "m") = some collideEntry ∧
    mget (deny collideQ "a" 0).2.entries (qkey "a::b" "M" "m") = none := by
  decide

/-- C9 amended: `approve(s1)` and `deny(s1)` leave untouched every live
entry whose composite key does not start with `s1 ++ "::"`; session
independence holds exactly when no other session's composite keys extend
that prefix. -/
theorem C9_session_frame (q : ApprovalQueue) (s1 k : String)
    (e : ApprovalEntry) (now : Nat) (hget : mget q.entries k = some e)
    (hpre : strStartsWith k (s1 ++ "::") = false)
    (hlive : now < e.expiresAt) :
    mget (approve q s1 now).2.entries k = some e ∧
    mget (deny q s1 now).2.entries k = some e := by
  have h1 : mget (maybeCleanup q now).entries k = some e :=
    maybeCleanup_mget_live q now k e hget hlive
  have hnot : k ∉ keysForSession (maybeCleanup q now).entries s1 := by
    intro hmem
    have h2 := (List.mem_filter.mp hmem).2
    rw [hpre] at h2
    cases h2
  constructor
  · have h3 := approveLoop_mget_notMem (maybeCleanup q now).entries
      (keysForSession (maybeCleanup q now).entries s1) now
      (maybeCleanup q now).ttl k hnot
    simpa [approve, h3] using h1
  · have h3 := denyLoop_mget_notMem (maybeCleanup q now).entries
      (keysForSession (maybeCleanup q now).entries s1) k hnot
    simpa [deny, h3] using h1

/-- C9 witness: a non-colliding session key ("x") leaves the live entry of
session "a::b" untouched under both approve and deny. -/
theorem C9_session_frame_witness :
    mget (approve collideQ "x" 0).2.entries (qkey "a::b" "M" "m") =
        some collideEntry ∧
    mget (deny collideQ "x" 0).2.entries (qkey "a::b" "M" "m") =
        some collideEntry :=
  C9_session_frame collideQ "x" (qkey "a::b" "M" "m") collideEntry 0
    (by decide) (by decide) (by decide)

/-- C10: `deny` removes only pending entries — a live approved entry of the
same or any session survives deny untouched and remains consumable. -/
theorem C10_deny_keeps_approvals (q : ApprovalQueue) (s s2 m meth : String)
    (now : Nat) (e : ApprovalEntry)
    (hget : mget q.entries (qkey s2 m meth) = some e)
    (happ : e.status = .approved) (hlive : now < e.expiresAt) :
    mget (deny q s now).2.entries (qkey s2 m meth) = some e ∧
    (consume (deny q s now).2 s2 m meth now).1 = true := by
  have h1 : mget (maybeCleanup q now).entries (qkey s2 m meth) = some e :=
    maybeCleanup_mget_live q now _ e hget hlive
  have hnp : ¬ e.status = .pending := by simp [happ]
  have h2 := denyLoop_mget_of_not_pending (maybeCleanup q now).entries
    (keysForSession (maybeCleanup q now).entries s) (qkey s2 m meth) e h1 hnp
  have h3 : mget (deny q s now).2.entries (qkey s2 m meth) = some e := by
    simpa [deny] using h2
  exact ⟨h3, by simp [consume, h3, happ, hlive]⟩

/-- C10 witness: deny("s1") leaves the approved entry of "s2" in place and
consumable. -/
theorem C10_deny_keeps_approvals_witness :
    mget (deny approvedQ "s1" 50).2.entries (qkey "s2" "Shell" "bash") =
        some approvedEntry ∧
    (consume (deny approvedQ "s1" 50).2 "s2" "Shell" "bash" 50).1 = true :=
  C10_deny_keeps_approvals approvedQ "s1" "s2" "Shell" "bash" 50 approvedEntry
    (by decide) (by decide) (by decide)

/-- C5 counterexample: `approve("a")` also transitions (and counts) the
pending entry of the distinct session `"a::b"`, because its composite key
starts with `"a::"`. -/
theorem C5_approve_cex :
    ("a" : String) ≠ "a::b" ∧
    collideEntry.sessionKey = "a::b" ∧
    (approve collideQ "a" 0).1 = 1 ∧
    mget (approve collideQ "a" 0).2.entries (qkey "a::b" "M" "m") =
      some { collideEntry with status := .approved, expiresAt := 120000 } := by
  decide

/-- C5 amended: `approve(s)` transitions to approved (TTL reset from the
approval instant) exactly the pending, unexpired entries whose composite
key starts with `s ++ "::"` — all of session s's entries, plus any other
session whose key extends that prefix — returning their number; every other
entry surviving the lazy sweep is returned unchanged; zero matches return
a count of 0. -/
theorem C5_approve_keyspace (q : ApprovalQueue) (s : String) (now : Nat)
    (hN : (q.entries.map Prod.fst).Nodup) :
    (∀ k e, mget (maybeCleanup q now).entries k = some e →
        strStartsWith k (s ++ "::") = true → e.status = .pending →
        now < e.expiresAt →
        mget (approve q s now).2.entries k =
          some { e with status := .approved, expiresAt := now + q.ttl }) ∧
    (∀ k e, mget (maybeCleanup q now).entries k = some e →
        ¬(strStartsWith k (s ++ "::") = true ∧ e.status = .pending ∧
          now < e.expiresAt) →
        mget (approve q s now).2.entries k = some e) ∧
    (approve q s now).1 =
      (maybeCleanup q now).entries.countP (sessionPendingLive s now) := by
  have hN1 := maybeCleanup_nodup q now hN
  have hksN : (keysForSession (maybeCleanup q now).entries s).Nodup :=
    List.Nodup.filter _ hN1
  refine ⟨?_, ?_, ?_⟩
  · intro k e hm hpre hp hl
    have hkmem : k ∈ keysForSession (maybeCleanup q now).entries s :=
      List.mem_filter.mpr ⟨mem_keys_of_mget _ _ _ hm, hpre⟩
    have h2 := approveLoop_mget_mem (maybeCleanup q now).entries
      (keysForSession (maybeCleanup q now).entries s) now
      (maybeCleanup q now).ttl k e hksN hkmem hm
    rw [if_pos ⟨hp, hl⟩] at h2
    have h3 : mget (approve q s now).2.entries k = some { e with status := Status.approved, expiresAt := now + (maybeCleanup q now).ttl } := by
      simpa [approve] using h2
    rwa [maybeCleanup_ttl] at h3
  · intro k e hm hno
    by_cases hpre : strStartsWith k (s ++ "::") = true
    · have hkmem : k ∈ keysForSession (maybeCleanup q now).entries s :=
        List.mem_filter.mpr ⟨mem_keys_of_mget _ _ _ hm, hpre⟩
      have h2 := approveLoop_mget_mem (maybeCleanup q now).entries
        (keysForSession (maybeCleanup q now).entries s) now
        (maybeCleanup q now).ttl k e hksN hkmem hm
      have hcond : ¬(e.status = .pending ∧ now < e.expiresAt) := fun hc =>
        hno ⟨hpre, hc.1, hc.2⟩
      rw [if_neg hcond] at h2
      simpa [approve] using h2
    · have hnot : k ∉ keysForSession (maybeCleanup q now).entries s := by
        intro hmem
        exact hpre (List.mem_filter.mp hmem).2
      have h2 := approveLoop_mget_notMem (maybeCleanup q now).entries
        (keysForSession (maybeCleanup q now).entries s) now
        (maybeCleanup q now).ttl k hnot
      rw [hm] at h2
      simpa [approve] using h2
  · have h2 := approveLoop_count (maybeCleanup q now).entries
      (keysForSession (maybeCleanup q now).entries s) now
      (maybeCleanup q now).ttl hksN
    rw [countP_keysForSession _ _ _ hN1] at h2
    simpa [approve] using h2

/-- C5 witness: the count returned by approve on a concrete queue equals the
number of matching pending entries. -/
theorem C5_approve_keyspace_witness :
    (approve pendQ "s" 5).1 =
      (maybeCleanup pendQ 5).entries.countP (sessionPendingLive "s" 5) :=
  (C5_approve_keyspace pendQ "s" 5 (by decide)).2.2

end ClawBands
